import Mathlib

/-!
# Verification of the Merkle-tree engine

Shallow embedding of the repository's Merkle-tree code (Go): the SHA-256
hashing primitives `hashLeaf`/`hashNode` implemented in `merkletree.go`
(and the separator-free `hashNode` variant of the second skeleton), and the
tree operations `NewMerkleTree`, `GetRoot`, `GetProof`, `VerifyProof`,
`UpdateElement`, `GetAggregatedProof`. The tree operations are `TODO` stubs
in every skeleton of the repository, so they are modelled from the design
specification; the hash functions are translated from the Go source.
-/

/-- One SHA-256 word: a natural number reduced mod 2^32. -/
def w32 (n : Nat) : Nat := n % 4294967296

/-- 32-bit right rotation, as used by the SHA-256 sigma functions. -/
def rotr (n x : Nat) : Nat := w32 ((x >>> n) ||| (x <<< (32 - n)))

/-- SHA-256 Ch(x,y,z) = (x AND y) XOR ((NOT x) AND z). -/
def ch (x y z : Nat) : Nat := (x &&& y) ^^^ ((x ^^^ 4294967295) &&& z)

/-- SHA-256 Maj(x,y,z). -/
def maj (x y z : Nat) : Nat := (x &&& y) ^^^ (x &&& z) ^^^ (y &&& z)

/-- SHA-256 Σ0. -/
def bigS0 (x : Nat) : Nat := rotr 2 x ^^^ rotr 13 x ^^^ rotr 22 x

/-- SHA-256 Σ1. -/
def bigS1 (x : Nat) : Nat := rotr 6 x ^^^ rotr 11 x ^^^ rotr 25 x

/-- SHA-256 σ0. -/
def smallS0 (x : Nat) : Nat := rotr 7 x ^^^ rotr 18 x ^^^ (x >>> 3)

/-- SHA-256 σ1. -/
def smallS1 (x : Nat) : Nat := rotr 17 x ^^^ rotr 19 x ^^^ (x >>> 10)

/-- The 64 SHA-256 round constants of FIPS 180-4, written in decimal. -/
def k256 : List Nat :=
  [1116352408, 1899447441, 3049323471, 3921009573, 961987163, 1508970993,
   2453635748, 2870763221, 3624381080, 310598401, 607225278, 1426881987,
   1925078388, 2162078206, 2614888103, 3248222580, 3835390401, 4022224774,
   264347078, 604807628, 770255983, 1249150122, 1555081692, 1996064986,
   2554220882, 2821834349, 2952996808, 3210313671, 3336571891, 3584528711,
   113926993, 338241895, 666307205, 773529912, 1294757372, 1396182291,
   1695183700, 1986661051, 2177026350, 2456956037, 2730485921, 2820302411,
   3259730800, 3345764771, 3516065817, 3600352804, 4094571909, 275423344,
   430227734, 506948616, 659060556, 883997877, 958139571, 1322822218,
   1537002063, 1747873779, 1955562222, 2024104815, 2227730452, 2361852424,
   2428436474, 2756734187, 3204031479, 3329325298]

/-- Big-endian packing of bytes into 32-bit words. -/
def bytesToWords : List Nat → List Nat
  | b0 :: b1 :: b2 :: b3 :: rest =>
      (b0 * 16777216 + b1 * 65536 + b2 * 256 + b3) :: bytesToWords rest
  | _ => []

/-- Extend a 16-word message block to the 64-word schedule, appending
`fuel` further words. -/
def extendSchedule : Nat → List Nat → List Nat
  | 0, w => w
  | n + 1, w =>
      let m := w.length
      let next := w32 (smallS1 (w.getD (m - 2) 0) + w.getD (m - 7) 0 +
                       smallS0 (w.getD (m - 15) 0) + w.getD (m - 16) 0)
      extendSchedule n (w ++ [next])

/-- SHA-256 working state: the eight 32-bit registers a..h. -/
structure Sha256State where
  a : Nat
  b : Nat
  c : Nat
  d : Nat
  e : Nat
  f : Nat
  g : Nat
  h : Nat
deriving Repr, DecidableEq

/-- Run the 64 SHA-256 rounds, consuming paired round constants and
schedule words. -/
def sha256Rounds : List (Nat × Nat) → Sha256State → Sha256State
  | [], s => s
  | (k, w) :: rest, s =>
      let t1 := w32 (s.h + bigS1 s.e + ch s.e s.f s.g + k + w)
      let t2 := w32 (bigS0 s.a + maj s.a s.b s.c)
      sha256Rounds rest
        ⟨w32 (t1 + t2), s.a, s.b, s.c, w32 (s.d + t1), s.e, s.f, s.g⟩

/-- One SHA-256 compression: process a 64-byte block into the chaining
state. -/
def compressBlock (H : Sha256State) (block : List Nat) : Sha256State :=
  let ws := extendSchedule 48 (bytesToWords block)
  let s := sha256Rounds (k256.zip ws) H
  ⟨w32 (H.a + s.a), w32 (H.b + s.b), w32 (H.c + s.c), w32 (H.d + s.d),
   w32 (H.e + s.e), w32 (H.f + s.f), w32 (H.g + s.g), w32 (H.h + s.h)⟩

/-- The SHA-256 initial chaining value of FIPS 180-4, written in decimal. -/
def sha256Init : Sha256State :=
  ⟨1779033703, 3144134277, 1013904242, 2773480762,
   1359893119, 2600822924, 528734635, 1541459225⟩

/-- The eight length bytes (big-endian bit count) of SHA-256 padding. -/
def lengthBytes (bits : Nat) : List Nat :=
  [(bits >>> 56) % 256, (bits >>> 48) % 256, (bits >>> 40) % 256,
   (bits >>> 32) % 256, (bits >>> 24) % 256, (bits >>> 16) % 256,
   (bits >>> 8) % 256, bits % 256]

/-- SHA-256 message padding: append 0x80, zeros to 56 mod 64, then the
64-bit message length in bits. -/
def padMessage (m : List Nat) : List Nat :=
  let L := m.length
  let zeros := (119 - L % 64) % 64
  m ++ 128 :: List.replicate zeros 0 ++ lengthBytes (8 * L)

/-- Split a byte list into 64-byte blocks; `fuel` bounds the number of
blocks and is always supplied ≥ the block count. -/
def toBlocks : Nat → List Nat → List (List Nat)
  | 0, _ => []
  | _ + 1, [] => []
  | n + 1, m => m.take 64 :: toBlocks n (m.drop 64)

/-- Hex digit character for a value < 16 (lowercase, as Go's %x). -/
def hexDigit (n : Nat) : Char :=
  if n < 10 then Char.ofNat (48 + n) else Char.ofNat (87 + n)

/-- Eight lowercase hex digits of one 32-bit word. -/
def wordHex (x : Nat) : List Char :=
  [hexDigit ((x >>> 28) % 16), hexDigit ((x >>> 24) % 16),
   hexDigit ((x >>> 20) % 16), hexDigit ((x >>> 16) % 16),
   hexDigit ((x >>> 12) % 16), hexDigit ((x >>> 8) % 16),
   hexDigit ((x >>> 4) % 16), hexDigit (x % 16)]

/-- Full SHA-256 of a byte list, rendered as the 64-character lowercase hex
string that Go's `fmt.Sprintf("%x", h.Sum(nil))` produces. -/
def sha256Hex (m : List Nat) : String :=
  let padded := padMessage m
  let final := (toBlocks (padded.length) padded).foldl compressBlock sha256Init
  String.mk (wordHex final.a ++ wordHex final.b ++ wordHex final.c ++
             wordHex final.d ++ wordHex final.e ++ wordHex final.f ++
             wordHex final.g ++ wordHex final.h)

/-- UTF-8 encoding of one character, as Go's `[]byte(string)` produces. -/
def charUtf8 (c : Char) : List Nat :=
  let n := c.toNat
  if n < 128 then [n]
  else if n < 2048 then [192 + n / 64, 128 + n % 64]
  else if n < 65536 then [224 + n / 4096, 128 + (n / 64) % 64, 128 + n % 64]
  else [240 + n / 262144, 128 + (n / 4096) % 64, 128 + (n / 64) % 64,
        128 + n % 64]

/-- The UTF-8 bytes of a string, matching Go's `[]byte(s)`. -/
def utf8Bytes (s : String) : List Nat := s.data.flatMap charUtf8

/-- `hashLeaf` from `merkletree.go`: SHA-256 of the element's bytes,
hex-encoded. -/
def hashLeaf (leaf : String) : String := sha256Hex (utf8Bytes leaf)

/-- `hashNode` from `merkletree.go`: SHA-256 of the bytes of `a`, then the
separator `":"`, then the bytes of `b` (three successive `h.Write` calls),
hex-encoded. -/
def hashNode (a b : String) : String :=
  sha256Hex (utf8Bytes a ++ utf8Bytes ":" ++ utf8Bytes b)

namespace Part003

/-- `hashNode` from the second skeleton (`src/unnamed/part_003`): SHA-256 of
the bytes of `a` directly followed by the bytes of `b`, with no separator. -/
def hashNode (a b : String) : String :=
  sha256Hex (utf8Bytes a ++ utf8Bytes b)

end Part003

/-- Error taxonomy of the spec: out-of-range index and invalid range. -/
inductive MerkleError
  | IndexOutOfRange
  | InvalidRange
deriving Repr, DecidableEq

/-- The `MerkleProof` record: hash of the proven element, sibling hashes in
leaf-to-root order, and directions (`true` = the sibling is on the left of
the path node). -/
structure MerkleProof where
  elementHash : String
  siblings : List String
  directions : List Bool
deriving Repr, DecidableEq

/-- Modelled from the spec: one construction step (the body of
`NewMerkleTree`, a `TODO` stub in the source) — pair adjacent hashes
left-to-right and combine each pair with the node hash. Called only on
even-length levels; an odd tail is left as is. -/
def pairUp (hn : String → String → String) : List String → List String
  | [] => []
  | [a] => [a]
  | a :: b :: rest => hn a b :: pairUp hn rest

/-- Modelled from the spec: iterate `pairUp` until a single hash remains,
collecting every level, leaves first.  Structural fuel bounds the number of
iterations; `buildLevels` supplies enough. -/
def buildLevelsFuel (hn : String → String → String) :
    Nat → List String → List (List String)
  | 0, l => [l]
  | n + 1, l => if l.length ≤ 1 then [l] else l :: buildLevelsFuel hn n (pairUp hn l)

/-- Modelled from the spec: all levels of the tree over a leaf-hash row,
level 0 (the leaves) first, the root level last. -/
def buildLevels (hn : String → String → String) (l : List String) :
    List (List String) :=
  buildLevelsFuel hn l.length l

/-- Modelled from the spec: pad a level on the right with empty strings up
to `n` slots. -/
def padTo (n : Nat) (l : List String) : List String :=
  l ++ List.replicate (n - l.length) ""

/-- Ceiling base-2 logarithm, with structural fuel (always supplied ≥ the
argument, which bounds the number of halvings). -/
def clog2Fuel : Nat → Nat → Nat
  | 0, _ => 0
  | f + 1, n => if n ≤ 1 then 0 else clog2Fuel f ((n + 1) / 2) + 1

/-- `ceil(log2 n)` — the minimal height of a tree with `n` leaves. -/
def ceilLog2 (n : Nat) : Nat := clog2Fuel n n

/-- Modelled from the spec: the padded leaf-hash row — the elements padded
with empty strings to the next power of two (`2 ^ ceil(log2 N)`, one slot
for `N ≤ 1`), each hashed with `hashLeaf`. -/
def leafRow (elements : List String) : List String :=
  (padTo (2 ^ ceilLog2 (max elements.length 1)) elements).map hashLeaf

/-- The tree state: every level of node hashes (leaves first) plus the
original, unpadded element count. -/
structure MerkleTree where
  levels : List (List String)
  count : Nat
deriving Repr, DecidableEq

/-- Modelled from the spec: `NewMerkleTree` (a `TODO` stub in the source)
builds the minimal-height tree over the padded leaf row using
`merkletree.go`'s `hashNode`, remembering the original element count. -/
def NewMerkleTree (elements : List String) : MerkleTree :=
  ⟨buildLevels hashNode (leafRow elements), elements.length⟩

/-- The single hash stored at the top level. -/
def rootOfLevels (levels : List (List String)) : String :=
  (levels.getLastD []).headD ""

/-- Modelled from the spec: `GetRoot` (a `TODO` stub in the source) returns
the hash at the top level. -/
def MerkleTree.GetRoot (t : MerkleTree) : String := rootOfLevels t.levels

/-- Modelled from the spec: the sibling hashes along the path from leaf
position `pos` to the root — at each level below the root, the hash at
position `pos XOR 1`. -/
def proofSibs : List (List String) → Nat → List String
  | [], _ => []
  | [_], _ => []
  | lvl :: l2 :: rest, pos =>
      lvl.getD (pos ^^^ 1) "" :: proofSibs (l2 :: rest) (pos / 2)

/-- Modelled from the spec: the direction bits along the path — `true`
exactly when the path position is odd, i.e. the sibling is the left child. -/
def proofDirs : List (List String) → Nat → List Bool
  | [], _ => []
  | [_], _ => []
  | _ :: l2 :: rest, pos => (pos % 2 == 1) :: proofDirs (l2 :: rest) (pos / 2)

/-- Modelled from the spec: `GetProof` (a `TODO` stub in the source) fails
with `IndexOutOfRange` for an index at or beyond the original element
count, and otherwise returns the stored leaf hash together with the sibling
path and direction bits. -/
def MerkleTree.GetProof (t : MerkleTree) (index : Nat) :
    Except MerkleError MerkleProof :=
  if index < t.count then
    .ok ⟨(t.levels.headD []).getD index "",
         proofSibs t.levels index, proofDirs t.levels index⟩
  else .error .IndexOutOfRange

/-- Modelled from the spec: the recomputation loop of `VerifyProof` (a
`TODO` stub in the source) — consume siblings and directions in lock-step,
hashing the sibling on the side its direction bit says, and compare the
final value with the root; ragged lists are rejected. -/
def verifyWalk (root : String) : String → List String → List Bool → Bool
  | cur, [], [] => cur == root
  | cur, s :: ss, d :: ds =>
      verifyWalk root (if d then hashNode s cur else hashNode cur s) ss ds
  | _, [], _ :: _ => false
  | _, _ :: _, [] => false

/-- Modelled from the spec: `VerifyProof` recomputes the path hash from the
element hash and compares it with the known root. -/
def VerifyProof (root : String) (proof : MerkleProof) : Bool :=
  verifyWalk root proof.elementHash proof.siblings proof.directions

/-- The path-hash fold named by the spec's description of verification:
fold the current hash through sibling/direction pairs in order. -/
def foldPath : String → List (String × Bool) → String
  | cur, [] => cur
  | cur, (s, d) :: rest =>
      foldPath (if d then hashNode s cur else hashNode cur s) rest

/-- Modelled from the spec: the in-place path update of `UpdateElement` (a
`TODO` stub in the source) — overwrite the entry at `pos` of the current
level, then recompute each ancestor from its two (possibly updated)
children up to and including the root. -/
def updateLevels (hn : String → String → String) :
    List (List String) → Nat → String → List (List String)
  | [], _, _ => []
  | lvl :: rest, pos, v =>
      let lvl2 := lvl.set pos v
      lvl2 :: updateLevels hn rest (pos / 2)
        (hn (lvl2.getD (2 * (pos / 2)) "") (lvl2.getD (2 * (pos / 2) + 1) ""))

/-- Modelled from the spec: `UpdateElement` (a `TODO` stub in the source)
fails with `IndexOutOfRange` at or beyond the original element count, and
otherwise replaces the leaf hash and recomputes the path to the root. -/
def MerkleTree.UpdateElement (t : MerkleTree) (index : Nat)
    (element : String) : Except MerkleError MerkleTree :=
  if index < t.count then
    .ok ⟨updateLevels hashNode t.levels index (hashLeaf element), t.count⟩
  else .error .IndexOutOfRange

/-- Modelled from the spec: the error classification of
`GetAggregatedProof` (a `TODO` stub in the source) — `InvalidRange` when
`startIndex ≥ endIndex`, `IndexOutOfRange` when a bound exceeds the
original element count, success otherwise (the range-proof payload itself
is not constrained by the claims and is modelled as `Unit`). -/
def MerkleTree.GetAggregatedProof (t : MerkleTree)
    (startIndex endIndex : Nat) : Except MerkleError Unit :=
  if startIndex ≥ endIndex then .error .InvalidRange
  else if startIndex > t.count ∨ endIndex > t.count then
    .error .IndexOutOfRange
  else .ok ()

/-! ## Supporting lemmas -/

set_option maxRecDepth 100000

theorem xor_one_of_even (q : Nat) : (2 * q) ^^^ 1 = 2 * q + 1 := by
  apply Nat.eq_of_testBit_eq
  intro i
  have h1 : 2 * q / 2 = q := by omega
  have h3 : (2 * q + 1) / 2 = q := by omega
  have h4 : (1 : Nat) / 2 = 0 := by omega
  cases i with
  | zero =>
      rw [Nat.testBit_xor]
      simp only [Nat.testBit_zero]
      simp only [Nat.mul_add_mod]
      simp
  | succ j =>
      rw [Nat.testBit_xor]
      simp only [Nat.testBit_add_one, h1, h3, h4, Nat.zero_testBit, Bool.xor_false]

theorem xor_one_of_odd (q : Nat) : (2 * q + 1) ^^^ 1 = 2 * q := by
  apply Nat.eq_of_testBit_eq
  intro i
  have h1 : 2 * q / 2 = q := by omega
  have h3 : (2 * q + 1) / 2 = q := by omega
  have h4 : (1 : Nat) / 2 = 0 := by omega
  cases i with
  | zero =>
      rw [Nat.testBit_xor]
      simp only [Nat.testBit_zero]
      simp
      omega
  | succ j =>
      rw [Nat.testBit_xor]
      simp only [Nat.testBit_add_one, h1, h3, h4, Nat.zero_testBit, Bool.xor_false]

theorem pairUp_length (hn : String → String → String) :
    ∀ l : List String, (pairUp hn l).length = (l.length + 1) / 2
  | [] => by simp [pairUp]
  | [a] => by simp [pairUp]
  | a :: b :: rest => by
      simp only [pairUp, List.length_cons, pairUp_length hn rest]
      omega

theorem buildLevelsFuel_of_le_one (hn : String → String → String)
    (l : List String) (h : l.length ≤ 1) :
    ∀ f, buildLevelsFuel hn f l = [l]
  | 0 => rfl
  | f + 1 => by simp [buildLevelsFuel, h]

theorem buildLevelsFuel_congr (hn : String → String → String) :
    ∀ (n : Nat) (l : List String) (f f' : Nat),
      l.length = n → n ≤ f + 1 → n ≤ f' + 1 →
      buildLevelsFuel hn f l = buildLevelsFuel hn f' l := by
  intro n
  induction n using Nat.strong_induction_on with
  | _ n ih =>
    intro l f f' hl hf hf'
    by_cases h1 : l.length ≤ 1
    · rw [buildLevelsFuel_of_le_one hn l h1, buildLevelsFuel_of_le_one hn l h1]
    · have h2 : 2 ≤ l.length := by omega
      obtain ⟨a, rfl⟩ : ∃ a, f = a + 1 := ⟨f - 1, by omega⟩
      obtain ⟨b, rfl⟩ : ∃ b, f' = b + 1 := ⟨f' - 1, by omega⟩
      simp only [buildLevelsFuel, if_neg h1]
      have hp := pairUp_length hn l
      congr 1
      exact ih (pairUp hn l).length (by omega) (pairUp hn l) a b rfl
        (by omega) (by omega)

theorem buildLevels_of_le_one (hn : String → String → String)
    (l : List String) (h : l.length ≤ 1) : buildLevels hn l = [l] :=
  buildLevelsFuel_of_le_one hn l h _

theorem buildLevels_of_two_le (hn : String → String → String)
    (l : List String) (h : 2 ≤ l.length) :
    buildLevels hn l = l :: buildLevels hn (pairUp hn l) := by
  unfold buildLevels
  obtain ⟨m, hm⟩ : ∃ m, l.length = m + 1 := ⟨l.length - 1, by omega⟩
  rw [hm]
  simp only [buildLevelsFuel, if_neg (by omega : ¬l.length ≤ 1)]
  congr 1
  exact buildLevelsFuel_congr hn (pairUp hn l).length (pairUp hn l) m
    (pairUp hn l).length rfl (by have := pairUp_length hn l; omega) (by omega)

theorem buildLevels_head (hn : String → String → String) (l : List String) :
    ∃ rest, buildLevels hn l = l :: rest := by
  by_cases h : l.length ≤ 1
  · exact ⟨[], buildLevels_of_le_one hn l h⟩
  · exact ⟨_, buildLevels_of_two_le hn l (by omega)⟩

theorem headD_buildLevels (hn : String → String → String) (l : List String) :
    (buildLevels hn l).headD [] = l := by
  obtain ⟨rest, h⟩ := buildLevels_head hn l
  rw [h]
  rfl

theorem rootOfLevels_cons_cons (a b : List String) (t : List (List String)) :
    rootOfLevels (a :: b :: t) = rootOfLevels (b :: t) := by
  simp [rootOfLevels, List.getLastD_cons]

theorem length_proofSibs_eq_dirs :
    ∀ (levels : List (List String)) (pos : Nat),
      (proofSibs levels pos).length = (proofDirs levels pos).length
  | [], _ => rfl
  | [_], _ => rfl
  | lvl :: l2 :: rest, pos => by
      simp only [proofSibs, proofDirs, List.length_cons]
      rw [length_proofSibs_eq_dirs (l2 :: rest) (pos / 2)]

theorem pairUp_getD (hn : String → String → String) :
    ∀ (l : List String) (j : Nat), 2 * j + 1 < l.length →
      (pairUp hn l).getD j "" = hn (l.getD (2 * j) "") (l.getD (2 * j + 1) "")
  | [], j, h => by simp at h
  | [a], j, h => by simp at h
  | a :: b :: rest, 0, h => by simp [pairUp]
  | a :: b :: rest, j + 1, h => by
      have hr : 2 * j + 1 < rest.length := by
        simp only [List.length_cons] at h
        omega
      have h2 : 2 * (j + 1) = 2 * j + 1 + 1 := by omega
      have h3 : 2 * (j + 1) + 1 = 2 * j + 1 + 1 + 1 := by omega
      simp only [pairUp, h2, h3, List.getD_cons_succ]
      exact pairUp_getD hn rest j hr

theorem foldPath_buildLevels :
    ∀ (k : Nat) (l : List String) (pos : Nat),
      l.length = 2 ^ k → pos < l.length →
      foldPath (l.getD pos "")
          ((proofSibs (buildLevels hashNode l) pos).zip
            (proofDirs (buildLevels hashNode l) pos)) =
        rootOfLevels (buildLevels hashNode l) := by
  intro k
  induction k with
  | zero =>
      intro l pos hl hpos
      obtain ⟨x, rfl⟩ := List.length_eq_one.mp (by simpa using hl)
      have hp0 : pos = 0 := by
        simp only [List.length_cons, List.length_nil] at hpos
        omega
      subst hp0
      rw [buildLevels_of_le_one hashNode [x] (by simp)]
      simp [proofSibs, proofDirs, foldPath, rootOfLevels]
  | succ k ih =>
      intro l pos hl hpos
      have hps : (2 : Nat) ^ (k + 1) = 2 * 2 ^ k := by
        rw [Nat.pow_succ]; ring
      have hkpos : 0 < 2 ^ k := Nat.pos_pow_of_pos k (by omega)
      have h2 : 2 ≤ l.length := by omega
      have hplen : (pairUp hashNode l).length = 2 ^ k := by
        have := pairUp_length hashNode l
        omega
      rw [buildLevels_of_two_le hashNode l h2]
      obtain ⟨rest, hR⟩ := buildLevels_head hashNode (pairUp hashNode l)
      rw [hR]
      simp only [proofSibs, proofDirs, List.zip_cons_cons, foldPath]
      rw [rootOfLevels_cons_cons]
      have step :
          (if (pos % 2 == 1) = true then
              hashNode (l.getD (pos ^^^ 1) "") (l.getD pos "")
            else hashNode (l.getD pos "") (l.getD (pos ^^^ 1) "")) =
            (pairUp hashNode l).getD (pos / 2) "" := by
        rcases (by omega : pos % 2 = 0 ∨ pos % 2 = 1) with hm | hm
        · have hx : pos ^^^ 1 = pos + 1 := by
            have hq : pos = 2 * (pos / 2) := by omega
            conv_lhs => rw [hq]
            rw [xor_one_of_even (pos / 2)]
            omega
          have hbound : 2 * (pos / 2) + 1 < l.length := by omega
          rw [pairUp_getD hashNode l (pos / 2) hbound]
          have e0 : 2 * (pos / 2) = pos := by omega
          have e1 : 2 * (pos / 2) + 1 = pos + 1 := by omega
          rw [e1, e0, hx]
          simp [hm]
        · have hx : pos ^^^ 1 = pos - 1 := by
            have hq : pos = 2 * (pos / 2) + 1 := by omega
            conv_lhs => rw [hq]
            rw [xor_one_of_odd (pos / 2)]
            omega
          have hbound : 2 * (pos / 2) + 1 < l.length := by omega
          rw [pairUp_getD hashNode l (pos / 2) hbound]
          have e0 : 2 * (pos / 2) = pos - 1 := by omega
          have e1 : 2 * (pos / 2) + 1 = pos := by omega
          rw [e1, e0, hx]
          simp [hm]
      rw [step]
      have := ih (pairUp hashNode l) (pos / 2) hplen (by omega)
      rw [hR] at this
      exact this

theorem verifyWalk_iff (root : String) :
    ∀ (ss : List String) (ds : List Bool) (cur : String),
      verifyWalk root cur ss ds = true ↔
        (ss.length = ds.length ∧ foldPath cur (ss.zip ds) = root)
  | [], [], cur => by
      simp [verifyWalk, foldPath, beq_iff_eq]
  | [], d :: ds, cur => by simp [verifyWalk]
  | s :: ss, [], cur => by simp [verifyWalk]
  | s :: ss, d :: ds, cur => by
      simp only [verifyWalk, List.zip_cons_cons, foldPath, List.length_cons]
      rw [verifyWalk_iff root ss ds _]
      constructor
      · rintro ⟨h1, h2⟩
        exact ⟨by omega, h2⟩
      · rintro ⟨h1, h2⟩
        exact ⟨by omega, h2⟩

theorem pairUp_set (hn : String → String → String) :
    ∀ (l : List String) (i : Nat) (v : String),
      i < l.length → l.length % 2 = 0 →
      pairUp hn (l.set i v) =
        (pairUp hn l).set (i / 2)
          (hn ((l.set i v).getD (2 * (i / 2)) "")
              ((l.set i v).getD (2 * (i / 2) + 1) ""))
  | [], i, v, h, _ => by simp at h
  | [a], i, v, h, hev => by simp at hev
  | a :: b :: rest, 0, v, h, hev => by
      simp [pairUp, List.set_cons_zero]
  | a :: b :: rest, 1, v, h, hev => by
      simp [pairUp, List.set_cons_zero, List.set_cons_succ]
  | a :: b :: rest, i + 2, v, h, hev => by
      have hr : i < rest.length := by
        simp only [List.length_cons] at h
        omega
      have hev' : rest.length % 2 = 0 := by
        simp only [List.length_cons] at hev
        omega
      have hdiv : (i + 2) / 2 = i / 2 + 1 := by omega
      have hg1 : 2 * ((i + 2) / 2) = 2 * (i / 2) + 1 + 1 := by omega
      have hg2 : 2 * ((i + 2) / 2) + 1 = 2 * (i / 2) + 1 + 1 + 1 := by omega
      rw [List.set_cons_succ, List.set_cons_succ]
      simp only [pairUp]
      rw [hg2, hg1, hdiv]
      simp only [List.getD_cons_succ, List.set_cons_succ]
      rw [pairUp_set hn rest i v hr hev']

theorem updateLevels_buildLevels (hn : String → String → String) :
    ∀ (k : Nat) (l : List String) (i : Nat) (v : String),
      l.length = 2 ^ k → i < l.length →
      updateLevels hn (buildLevels hn l) i v = buildLevels hn (l.set i v) := by
  intro k
  induction k with
  | zero =>
      intro l i v hl hi
      obtain ⟨x, rfl⟩ := List.length_eq_one.mp (by simpa using hl)
      have hi0 : i = 0 := by
        simp only [List.length_cons, List.length_nil] at hi
        omega
      subst hi0
      rw [buildLevels_of_le_one hn [x] (by simp),
          buildLevels_of_le_one hn ([x].set 0 v) (by simp)]
      simp [updateLevels]
  | succ k ih =>
      intro l i v hl hi
      have hps : (2 : Nat) ^ (k + 1) = 2 * 2 ^ k := by
        rw [Nat.pow_succ]; ring
      have hkpos : 0 < 2 ^ k := Nat.pos_pow_of_pos k (by omega)
      have h2 : 2 ≤ l.length := by omega
      have heven : l.length % 2 = 0 := by omega
      have hplen : (pairUp hn l).length = 2 ^ k := by
        have := pairUp_length hn l
        omega
      rw [buildLevels_of_two_le hn l h2,
          buildLevels_of_two_le hn (l.set i v)
            (by rw [List.length_set]; omega)]
      simp only [updateLevels]
      rw [pairUp_set hn l i v hi heven]
      congr 1
      exact ih (pairUp hn l) (i / 2) _ hplen (by omega)

theorem clog2Fuel_congr :
    ∀ (m : Nat) (n f f' : Nat), n = m → m ≤ f + 1 → m ≤ f' + 1 →
      clog2Fuel f n = clog2Fuel f' n := by
  intro m
  induction m using Nat.strong_induction_on with
  | _ m ih =>
    intro n f f' hn hf hf'
    by_cases h1 : n ≤ 1
    · have hz : ∀ g, clog2Fuel g n = 0 := by
        intro g
        cases g with
        | zero => rfl
        | succ g => simp [clog2Fuel, h1]
      rw [hz, hz]
    · have h2 : 2 ≤ n := by omega
      obtain ⟨a, rfl⟩ : ∃ a, f = a + 1 := ⟨f - 1, by omega⟩
      obtain ⟨b, rfl⟩ : ∃ b, f' = b + 1 := ⟨f' - 1, by omega⟩
      simp only [clog2Fuel, if_neg h1]
      have := ih ((n + 1) / 2) (by omega) ((n + 1) / 2) a b rfl
        (by omega) (by omega)
      omega

theorem ceilLog2_of_le_one {n : Nat} (h : n ≤ 1) : ceilLog2 n = 0 := by
  unfold ceilLog2
  cases n with
  | zero => rfl
  | succ m => simp [clog2Fuel, h]

theorem ceilLog2_of_two_le {n : Nat} (h : 2 ≤ n) :
    ceilLog2 n = ceilLog2 ((n + 1) / 2) + 1 := by
  unfold ceilLog2
  obtain ⟨m, hm⟩ : ∃ m, n = m + 1 := ⟨n - 1, by omega⟩
  rw [hm]
  simp only [clog2Fuel, if_neg (by omega : ¬m + 1 ≤ 1)]
  have := clog2Fuel_congr ((m + 1 + 1) / 2) ((m + 1 + 1) / 2) m
    ((m + 1 + 1) / 2) rfl (by omega) (by omega)
  omega

theorem le_two_pow_ceilLog2 : ∀ n : Nat, n ≤ 2 ^ ceilLog2 n := by
  intro n
  induction n using Nat.strong_induction_on with
  | _ n ih =>
    by_cases h1 : n ≤ 1
    · rw [ceilLog2_of_le_one h1]
      simpa using h1
    · have h2 : 2 ≤ n := by omega
      rw [ceilLog2_of_two_le h2]
      have hlt : (n + 1) / 2 < n := by omega
      have := ih ((n + 1) / 2) hlt
      have hp : (2 : Nat) ^ (ceilLog2 ((n + 1) / 2) + 1) =
          2 * 2 ^ ceilLog2 ((n + 1) / 2) := by
        rw [Nat.pow_succ]; ring
      omega

theorem ceilLog2_eq_clog (n : Nat) : ceilLog2 n = Nat.clog 2 n := by
  induction n using Nat.strong_induction_on with
  | _ n ih =>
    by_cases h1 : n ≤ 1
    · rw [ceilLog2_of_le_one h1, Nat.clog_of_right_le_one h1]
    · have h2 : 2 ≤ n := by omega
      rw [ceilLog2_of_two_le h2, Nat.clog_of_two_le (by omega) h2]
      have heq : (n + 2 - 1) / 2 = (n + 1) / 2 := by omega
      rw [heq, ih ((n + 1) / 2) (by omega)]

theorem leafRow_length (elements : List String) :
    (leafRow elements).length =
      2 ^ ceilLog2 (max elements.length 1) := by
  unfold leafRow padTo
  rw [List.length_map, List.length_append, List.length_replicate]
  have h1 : max elements.length 1 ≤ 2 ^ ceilLog2 (max elements.length 1) :=
    le_two_pow_ceilLog2 _
  omega

theorem length_le_leafRow (elements : List String) :
    elements.length ≤ (leafRow elements).length := by
  rw [leafRow_length]
  have h1 : max elements.length 1 ≤ 2 ^ ceilLog2 (max elements.length 1) :=
    le_two_pow_ceilLog2 _
  omega

theorem leafRow_set (elements : List String) (i : Nat) (e : String)
    (h : i < elements.length) :
    leafRow (elements.set i e) = (leafRow elements).set i (hashLeaf e) := by
  unfold leafRow padTo
  rw [List.length_set]
  rw [show elements.set i e ++
        List.replicate (2 ^ ceilLog2 (max elements.length 1) -
          elements.length) "" =
      (elements ++
        List.replicate (2 ^ ceilLog2 (max elements.length 1) -
          elements.length) "").set i e from by
    rw [List.set_append]
    simp [h]]
  rw [List.map_set]

theorem leafRow_getD (elements : List String) (i : Nat)
    (h : i < elements.length) :
    (leafRow elements).getD i "" = hashLeaf (elements.getD i "") := by
  unfold leafRow padTo
  rw [List.getD_eq_getElem?_getD, List.getElem?_map, List.getElem?_append,
      if_pos h, List.getD_eq_getElem?_getD]
  rw [List.getElem?_eq_getElem h]
  simp

theorem utf8Bytes_append (a b : String) :
    utf8Bytes (a ++ b) = utf8Bytes a ++ utf8Bytes b := by
  unfold utf8Bytes
  rw [String.data_append, List.flatMap_append]

theorem getProof_ok (elements : List String) (i : Nat)
    (h : i < elements.length) :
    (NewMerkleTree elements).GetProof i = Except.ok
      ⟨(leafRow elements).getD i "",
       proofSibs (buildLevels hashNode (leafRow elements)) i,
       proofDirs (buildLevels hashNode (leafRow elements)) i⟩ := by
  simp only [MerkleTree.GetProof, NewMerkleTree]
  rw [if_pos h, headD_buildLevels]

theorem proof_verifies (elements : List String) (i : Nat)
    (h : i < elements.length) :
    VerifyProof (NewMerkleTree elements).GetRoot
      ⟨(leafRow elements).getD i "",
       proofSibs (buildLevels hashNode (leafRow elements)) i,
       proofDirs (buildLevels hashNode (leafRow elements)) i⟩ = true := by
  show verifyWalk (NewMerkleTree elements).GetRoot
    ((leafRow elements).getD i "") _ _ = true
  refine (verifyWalk_iff _ _ _ _).mpr ⟨length_proofSibs_eq_dirs _ _, ?_⟩
  have hi : i < (leafRow elements).length :=
    lt_of_lt_of_le h (length_le_leafRow elements)
  exact foldPath_buildLevels (ceilLog2 (max elements.length 1))
    (leafRow elements) i (leafRow_length elements) hi

theorem updateElement_ok (elements : List String) (i : Nat) (e : String)
    (h : i < elements.length) :
    (NewMerkleTree elements).UpdateElement i e =
      Except.ok (NewMerkleTree (elements.set i e)) := by
  simp only [MerkleTree.UpdateElement, NewMerkleTree]
  rw [if_pos h]
  have hlev : updateLevels hashNode
      (buildLevels hashNode (leafRow elements)) i (hashLeaf e) =
      buildLevels hashNode (leafRow (elements.set i e)) := by
    rw [leafRow_set elements i e h]
    exact updateLevels_buildLevels hashNode
      (ceilLog2 (max elements.length 1)) (leafRow elements) i (hashLeaf e)
      (leafRow_length elements) (lt_of_lt_of_le h (length_le_leafRow elements))
  rw [hlev, List.length_set]

/-! ## Claim theorems -/

/-- C1: for every element list, the tree built from it by `NewMerkleTree`,
and every index `i` less than the original element count, `GetProof i`
succeeds and `VerifyProof (GetRoot()) (GetProof i)` returns `true` —
proof generation and proof verification round-trip. -/
theorem getProof_verifyProof_roundtrip (elements : List String) (i : Nat)
    (h : i < elements.length) :
    ∃ p, (NewMerkleTree elements).GetProof i = Except.ok p ∧
      VerifyProof (NewMerkleTree elements).GetRoot p = true :=
  ⟨_, getProof_ok elements i h, proof_verifies elements i h⟩

/-- Witness for C1 at the element list of the bundled test and index 1. -/
theorem getProof_verifyProof_roundtrip_witness :
    ∃ p, (NewMerkleTree ["some", "test", "elements"]).GetProof 1 =
        Except.ok p ∧
      VerifyProof (NewMerkleTree ["some", "test", "elements"]).GetRoot p =
        true :=
  getProof_verifyProof_roundtrip ["some", "test", "elements"] 1 (by decide)

/-- C2: for the element list `["some", "test", "elements"]` the leaf row is
padded with one empty-string leaf to 4 slots, and the root equals
`hashNode (hashNode (hashLeaf "some") (hashLeaf "test"))
(hashNode (hashLeaf "elements") (hashLeaf ""))`. -/
theorem newMerkleTree_root_of_worked_example :
    (NewMerkleTree ["some", "test", "elements"]).levels.headD [] =
      [hashLeaf "some", hashLeaf "test", hashLeaf "elements", hashLeaf ""] ∧
    (NewMerkleTree ["some", "test", "elements"]).GetRoot =
      hashNode (hashNode (hashLeaf "some") (hashLeaf "test"))
        (hashNode (hashLeaf "elements") (hashLeaf "")) :=
  ⟨rfl, rfl⟩

/-- C3: for the tree built from `["some", "test", "elements"]`,
`GetProof 2` returns the proof with siblings
`[hashLeaf "", hashNode (hashLeaf "some") (hashLeaf "test")]` in
leaf-to-root order and directions `[false, true]`, where `true` means the
sibling is on the left of the path node and `false` on the right. -/
theorem getProof_index_two_of_worked_example :
    (NewMerkleTree ["some", "test", "elements"]).GetProof 2 =
      Except.ok
        ⟨hashLeaf "elements",
         [hashLeaf "", hashNode (hashLeaf "some") (hashLeaf "test")],
         [false, true]⟩ := rfl

/-- C4: `VerifyProof root proof` returns `true` exactly when the siblings
and directions have the same length and folding `proof.elementHash`
through the sibling/direction pairs in order — hashing the sibling on the
left when the direction bit says so — yields `root`; in particular a
proof with mismatched lengths verifies to `false` (and never crashes,
`VerifyProof` being a total function). -/
theorem verifyProof_iff_foldPath (root : String) (proof : MerkleProof) :
    VerifyProof root proof = true ↔
      (proof.siblings.length = proof.directions.length ∧
       foldPath proof.elementHash (proof.siblings.zip proof.directions) =
         root) :=
  verifyWalk_iff root proof.siblings proof.directions proof.elementHash

/-- C5: after a successful `UpdateElement i e`, the fresh proof at `i`
carries `hashLeaf e` as its element hash and verifies against the updated
root, and fresh proofs for every other in-range index also verify against
the updated root. -/
theorem updateElement_consistency (elements : List String) (i : Nat)
    (e : String) (h : i < elements.length) :
    ∃ t', (NewMerkleTree elements).UpdateElement i e = Except.ok t' ∧
      (∃ p, t'.GetProof i = Except.ok p ∧ p.elementHash = hashLeaf e ∧
        VerifyProof t'.GetRoot p = true) ∧
      (∀ j, j < elements.length → j ≠ i →
        ∃ q, t'.GetProof j = Except.ok q ∧
          VerifyProof t'.GetRoot q = true) := by
  refine ⟨NewMerkleTree (elements.set i e), updateElement_ok elements i e h,
    ?_, ?_⟩
  · have hi' : i < (elements.set i e).length := by
      rw [List.length_set]; exact h
    refine ⟨_, getProof_ok (elements.set i e) i hi', ?_,
      proof_verifies (elements.set i e) i hi'⟩
    rw [leafRow_getD (elements.set i e) i hi']
    rw [List.getD_eq_getElem?_getD, List.getElem?_set_self h]
    rfl
  · intro j hj hne
    have hj' : j < (elements.set i e).length := by
      rw [List.length_set]; exact hj
    exact ⟨_, getProof_ok (elements.set i e) j hj',
      proof_verifies (elements.set i e) j hj'⟩

/-- Witness for C5 at the list `["some", "test"]`, index 0, new element
`"other"`. -/
theorem updateElement_consistency_witness :
    ∃ t', (NewMerkleTree ["some", "test"]).UpdateElement 0 "other" =
        Except.ok t' ∧
      (∃ p, t'.GetProof 0 = Except.ok p ∧
        p.elementHash = hashLeaf "other" ∧
        VerifyProof t'.GetRoot p = true) ∧
      (∀ j, j < (["some", "test"] : List String).length → j ≠ 0 →
        ∃ q, t'.GetProof j = Except.ok q ∧
          VerifyProof t'.GetRoot q = true) :=
  updateElement_consistency ["some", "test"] 0 "other" (by decide)

/-- C6 counterexample: the hashing primitives are not domain-separated —
`hashLeaf` applied to the string `"a:b"` collides with
`hashNode "a" "b"`, refuting the claim that a leaf hash can never equal a
node hash. -/
theorem hashLeaf_ne_hashNode_refuted :
    ¬(∀ (s a b : String), hashLeaf s ≠ hashNode a b) :=
  fun h => h "a:b" "a" "b" rfl

/-- C6 amended: `hashLeaf` and `hashNode` share one hash domain — for all
strings `a` and `b`, `hashLeaf (a ++ ":" ++ b) = hashNode a b`, so a leaf
commitment can coincide with an internal-node hash whenever the leaf
string is the colon-joined pair. -/
theorem hashLeaf_concat_eq_hashNode (a b : String) :
    hashLeaf (a ++ ":" ++ b) = hashNode a b := by
  unfold hashLeaf hashNode
  rw [utf8Bytes_append, utf8Bytes_append]

/-- C7: `GetProof index` and `UpdateElement index e` on a tree of `N`
original elements fail with `IndexOutOfRange` exactly when `index ≥ N`
(the unpadded count — the tree does not grow), and succeed for every
`index < N`. -/
theorem getProof_updateElement_bounds (elements : List String)
    (index : Nat) (element : String) :
    (elements.length ≤ index →
      (NewMerkleTree elements).GetProof index =
        Except.error MerkleError.IndexOutOfRange ∧
      (NewMerkleTree elements).UpdateElement index element =
        Except.error MerkleError.IndexOutOfRange) ∧
    (index < elements.length →
      (∃ p, (NewMerkleTree elements).GetProof index = Except.ok p) ∧
      (∃ t', (NewMerkleTree elements).UpdateElement index element =
        Except.ok t')) := by
  constructor
  · intro hge
    constructor
    · simp only [MerkleTree.GetProof, NewMerkleTree]
      rw [if_neg (by omega)]
    · simp only [MerkleTree.UpdateElement, NewMerkleTree]
      rw [if_neg (by omega)]
  · intro hlt
    exact ⟨⟨_, getProof_ok elements index hlt⟩,
      ⟨_, updateElement_ok elements index element hlt⟩⟩

/-- Witness for C7 at a three-element tree and the out-of-range index 5
(and, through the same instantiation, the in-range branch at index 5 is
vacuous). -/
theorem getProof_updateElement_bounds_witness :
    (NewMerkleTree ["a", "b", "c"]).GetProof 5 =
        Except.error MerkleError.IndexOutOfRange ∧
      (NewMerkleTree ["a", "b", "c"]).UpdateElement 5 "x" =
        Except.error MerkleError.IndexOutOfRange :=
  (getProof_updateElement_bounds ["a", "b", "c"] 5 "x").1 (by decide)

/-- C8: `GetAggregatedProof startIndex endIndex` fails with `InvalidRange`
when `startIndex ≥ endIndex`, fails with `IndexOutOfRange` when the range
is ordered but a bound exceeds the original element count, and succeeds
otherwise. -/
theorem getAggregatedProof_range_errors (elements : List String)
    (startIndex endIndex : Nat) :
    (endIndex ≤ startIndex →
      (NewMerkleTree elements).GetAggregatedProof startIndex endIndex =
        Except.error MerkleError.InvalidRange) ∧
    (startIndex < endIndex →
      elements.length < endIndex ∨ elements.length < startIndex →
      (NewMerkleTree elements).GetAggregatedProof startIndex endIndex =
        Except.error MerkleError.IndexOutOfRange) ∧
    (startIndex < endIndex → endIndex ≤ elements.length →
      (NewMerkleTree elements).GetAggregatedProof startIndex endIndex =
        Except.ok ()) := by
  refine ⟨?_, ?_, ?_⟩
  · intro hle
    simp only [MerkleTree.GetAggregatedProof, NewMerkleTree]
    rw [if_pos (by omega)]
  · intro hlt hout
    simp only [MerkleTree.GetAggregatedProof, NewMerkleTree]
    rw [if_neg (by omega), if_pos (by omega)]
  · intro hlt hin
    simp only [MerkleTree.GetAggregatedProof, NewMerkleTree]
    rw [if_neg (by omega), if_neg (by omega)]

/-- Witness for C8: on a three-element tree the range [1, 3) succeeds. -/
theorem getAggregatedProof_range_errors_witness :
    (NewMerkleTree ["a", "b", "c"]).GetAggregatedProof 1 3 =
      Except.ok () :=
  (getAggregatedProof_range_errors ["a", "b", "c"] 1 3).2.2 (by decide)
    (by decide)

/-- C9: the two hashing primitives of `merkletree.go` coincide on joined
input — for all strings `a` and `b`, `hashNode a b` equals
`hashLeaf (a ++ ":" ++ b)`: both are the hex-encoded SHA-256 of the same
byte sequence, so node hashes and leaf hashes share one undifferentiated
hash domain. -/
theorem hashNode_eq_hashLeaf_concat (a b : String) :
    hashNode a b = hashLeaf (a ++ ":" ++ b) := by
  unfold hashLeaf hashNode
  rw [utf8Bytes_append, utf8Bytes_append]

set_option maxHeartbeats 3200000 in
/-- C10: the two `hashNode` variants in the repository are different
functions — at `a = "a"`, `b = "b"` the separator-free variant of the
second skeleton disagrees with the `":"`-separated variant of
`merkletree.go`; the two skeletons therefore commit to different roots
for the test element list (the separator-free root being the constant
hard-coded in one bundled test), and the two bundled tests hard-code two
different expected root constants. -/
theorem hashNode_variants_differ :
    Part003.hashNode "a" "b" ≠ hashNode "a" "b" ∧
    rootOfLevels
        (buildLevels Part003.hashNode
          (leafRow ["some", "test", "elements"])) ≠
      (NewMerkleTree ["some", "test", "elements"]).GetRoot ∧
    rootOfLevels
        (buildLevels Part003.hashNode
          (leafRow ["some", "test", "elements"])) =
      "040c89dca6bd37584693bb94e6a68b6212edbc7f063d39b28ad6874dbd4f30d2" ∧
    ("11149427e30b266a5af018ed31fe9c1156f07efc8fd32e8e934b844e764e409c" :
        String) ≠
      "040c89dca6bd37584693bb94e6a68b6212edbc7f063d39b28ad6874dbd4f30d2" := by
  have hns : rootOfLevels
      (buildLevels Part003.hashNode
        (leafRow ["some", "test", "elements"])) =
      "040c89dca6bd37584693bb94e6a68b6212edbc7f063d39b28ad6874dbd4f30d2" := by
    decide
  have hsep : (NewMerkleTree ["some", "test", "elements"]).GetRoot =
      "23b63acc9d542f6df9d84f8bd14b15a0a558b2b13de5e7ae454764f5230664fc" := by
    decide
  refine ⟨by decide, ?_, hns, by decide⟩
  rw [hns, hsep]
  decide
